import Mathlib

/-!
# Verification of the hft-gateway length-prefixed frame codec and connection machinery

Shallow embedding of `src/network/message.cpp`, `src/server.cpp` and the
client connect thread. Byte strings are `List Nat` (each element one byte);
machine-integer truncation is made explicit with `% 256` / division where the
source casts. Stateful C++ methods become pure functions returning the new
state; out-parameters become extra inputs and outputs; socket syscalls are
abstracted as event traces consumed by the loop bodies they drive.
-/

namespace HftGateway

/-- The receiver cap from `message.cpp`: messages larger than `1024 * 1024`
bytes are rejected. -/
def maxMessageSize : Nat := 1024 * 1024

/-- Big-endian 4-byte encoding of a 32-bit value, as produced by
`htonl(static_cast<uint32_t>(n))` followed by `memcpy` into the frame header.
The byte extraction truncates exactly as the `uint32_t` cast does. -/
def encodeBE4 (n : Nat) : List Nat :=
  [n / 2 ^ 24 % 256, n / 2 ^ 16 % 256, n / 2 ^ 8 % 256, n % 256]

/-- Big-endian decode of the first four bytes, as done by `memcpy` of four
bytes from `buffer_.data() + readPos_` followed by `ntohl`. Reads only the
first four elements; shorter lists (never decoded by the source, which
checks `available < 4` first) give `0`. -/
def decodeBE4 : List Nat → Nat
  | a :: b :: c :: d :: _ => ((a * 256 + b) * 256 + c) * 256 + d
  | _ => 0

/-- The frame `sendFramedMessage` builds: 4-byte big-endian length header
followed by the payload bytes. -/
def sendFrameBytes (message : List Nat) : List Nat :=
  encodeBE4 message.length ++ message

/-- `MessageBuffer` from `message.h`: an owned byte sequence plus a read
cursor. -/
structure MessageBuffer where
  buffer_ : List Nat
  readPos_ : Nat
deriving DecidableEq, Repr

/-- `MessageBuffer::clear`: empties the buffer and resets the read cursor. -/
def MessageBuffer.clear (_mb : MessageBuffer) : MessageBuffer :=
  { buffer_ := [], readPos_ := 0 }

/-- `MessageBuffer::compactIfNeeded`: when the cursor is positive and either
exceeds half the buffer length or the buffer exceeds 1MB, drop the consumed
head and reset the cursor. -/
def MessageBuffer.compactIfNeeded (mb : MessageBuffer) : MessageBuffer :=
  if mb.readPos_ > 0 ∧
      (mb.readPos_ > mb.buffer_.length / 2 ∨ mb.buffer_.length > 1024 * 1024) then
    { buffer_ := mb.buffer_.drop mb.readPos_, readPos_ := 0 }
  else
    mb

/-- `MessageBuffer::addData`: compacts first, then appends the new bytes at
the tail; always returns `true`. -/
def MessageBuffer.addData (mb : MessageBuffer) (data : List Nat) :
    Bool × MessageBuffer :=
  let mb1 := mb.compactIfNeeded
  (true, { buffer_ := mb1.buffer_ ++ data, readPos_ := mb1.readPos_ })

/-- `MessageBuffer::extractMessage`: mirrors the source including the
out-parameter `message`, which is returned unchanged on the `false` paths.
Returns `(return value, message out-parameter, new buffer state)`. -/
def MessageBuffer.extractMessage (mb : MessageBuffer) (message : List Nat) :
    Bool × List Nat × MessageBuffer :=
  let available := mb.buffer_.length - mb.readPos_
  if available < 4 then
    (false, message, mb)
  else
    let length := decodeBE4 (mb.buffer_.drop mb.readPos_)
    if length > 1024 * 1024 then
      (false, message, mb.clear)
    else if available < 4 + length then
      (false, message, mb)
    else
      let msg := (mb.buffer_.drop (mb.readPos_ + 4)).take length
      let mb1 : MessageBuffer :=
        { buffer_ := mb.buffer_, readPos_ := mb.readPos_ + 4 + length }
      (true, msg, mb1.compactIfNeeded)

/-- The unread tail of a buffer: the bytes at and after the read cursor.
This is the observable content of the codec state. -/
def MessageBuffer.tailBytes (mb : MessageBuffer) : List Nat :=
  mb.buffer_.drop mb.readPos_

/-- Representation invariant maintained by the class: the cursor never
passes the end of the buffer. -/
def MessageBuffer.Wf (mb : MessageBuffer) : Prop :=
  mb.readPos_ ≤ mb.buffer_.length

instance (mb : MessageBuffer) : Decidable mb.Wf := by
  unfold MessageBuffer.Wf; infer_instance

/-- The empty buffer every connection starts from. -/
def MessageBuffer.empty : MessageBuffer := { buffer_ := [], readPos_ := 0 }

/-- Modelled from the spec: the cursor-free reference decoder of the
compaction-transparency property — it keeps the unread bytes as a plain list,
erases consumed bytes immediately and therefore never compacts, while
applying the same header/size/completeness rules as `extractMessage`. -/
def naiveExtract (bs : List Nat) : Option (List Nat) × List Nat :=
  if bs.length < 4 then (none, bs)
  else
    let n := decodeBE4 bs
    if n > 1024 * 1024 then (none, [])
    else if bs.length < 4 + n then (none, bs)
    else (some ((bs.drop 4).take n), bs.drop (4 + n))

@[simp] lemma MessageBuffer.tailBytes_length (mb : MessageBuffer) :
    mb.tailBytes.length = mb.buffer_.length - mb.readPos_ := by
  simp [MessageBuffer.tailBytes]

lemma MessageBuffer.compactIfNeeded_tailBytes (mb : MessageBuffer) :
    mb.compactIfNeeded.tailBytes = mb.tailBytes := by
  unfold MessageBuffer.compactIfNeeded
  split <;> simp [MessageBuffer.tailBytes]

lemma MessageBuffer.compactIfNeeded_wf (mb : MessageBuffer) (h : mb.Wf) :
    mb.compactIfNeeded.Wf := by
  unfold MessageBuffer.compactIfNeeded
  split
  · simp [MessageBuffer.Wf]
  · exact h

lemma MessageBuffer.addData_wf (mb : MessageBuffer) (d : List Nat) (h : mb.Wf) :
    (mb.addData d).2.Wf := by
  have h1 := mb.compactIfNeeded_wf h
  unfold MessageBuffer.addData
  simp only [MessageBuffer.Wf] at h1 ⊢
  simp only [List.length_append]
  omega

lemma MessageBuffer.addData_fst (mb : MessageBuffer) (d : List Nat) :
    (mb.addData d).1 = true := rfl

lemma MessageBuffer.addData_tailBytes (mb : MessageBuffer) (d : List Nat)
    (h : mb.Wf) : (mb.addData d).2.tailBytes = mb.tailBytes ++ d := by
  have h1 := mb.compactIfNeeded_wf h
  have h2 := mb.compactIfNeeded_tailBytes
  unfold MessageBuffer.addData
  simp only [MessageBuffer.Wf] at h1
  simp only [MessageBuffer.tailBytes] at h2 ⊢
  rw [List.drop_append_eq_append_drop, Nat.sub_eq_zero_of_le h1, List.drop_zero, h2]

/-- One extraction step of the cursor-tracking buffer agrees with one step of
the naive cursor-free decoder on the unread tail: same success bit, same
out-parameter behaviour, and tails that stay in lockstep. -/
lemma MessageBuffer.extractMessage_sim (mb : MessageBuffer) (msg : List Nat)
    (h : mb.Wf) :
    (mb.extractMessage msg).1 = (naiveExtract mb.tailBytes).1.isSome ∧
    (mb.extractMessage msg).2.1 = (naiveExtract mb.tailBytes).1.getD msg ∧
    (mb.extractMessage msg).2.2.tailBytes = (naiveExtract mb.tailBytes).2 ∧
    (mb.extractMessage msg).2.2.Wf := by
  have h' : mb.readPos_ ≤ mb.buffer_.length := h
  by_cases h1 : mb.buffer_.length - mb.readPos_ < 4
  · simp [MessageBuffer.extractMessage, naiveExtract, MessageBuffer.tailBytes,
      MessageBuffer.Wf, h1, h']
  · by_cases h2 : decodeBE4 (mb.buffer_.drop mb.readPos_) > 1024 * 1024
    · simp [MessageBuffer.extractMessage, naiveExtract, MessageBuffer.tailBytes,
        MessageBuffer.clear, MessageBuffer.Wf, h1, h2]
    · by_cases h3 : mb.buffer_.length - mb.readPos_ <
          4 + decodeBE4 (mb.buffer_.drop mb.readPos_)
      · simp [MessageBuffer.extractMessage, naiveExtract, MessageBuffer.tailBytes,
          MessageBuffer.Wf, h1, h2, h3, h']
      · have hc := MessageBuffer.compactIfNeeded_tailBytes
          (MessageBuffer.mk mb.buffer_
            (mb.readPos_ + (decodeBE4 (mb.buffer_.drop mb.readPos_) + 4)))
        simp only [MessageBuffer.tailBytes] at hc
        have hcw := MessageBuffer.compactIfNeeded_wf
          (MessageBuffer.mk mb.buffer_
            (mb.readPos_ + (decodeBE4 (mb.buffer_.drop mb.readPos_) + 4)))
          (by simp only [MessageBuffer.Wf]; omega)
        refine ⟨?_, ?_, ?_, ?_⟩
        · simp [MessageBuffer.extractMessage, naiveExtract, MessageBuffer.tailBytes,
            h1, h2, h3]
        · simp [MessageBuffer.extractMessage, naiveExtract, MessageBuffer.tailBytes,
            h1, h2, h3]
          try simp [List.drop_drop, Nat.add_comm, Nat.add_assoc, Nat.add_left_comm]
        · simp [MessageBuffer.extractMessage, naiveExtract, MessageBuffer.tailBytes,
            h1, h2, h3]
          try simp [hc, List.drop_drop, Nat.add_comm, Nat.add_assoc,
            Nat.add_left_comm]
        · simp [MessageBuffer.extractMessage, MessageBuffer.tailBytes, h1, h2, h3]
          exact MessageBuffer.compactIfNeeded_wf _
            (by simp only [MessageBuffer.Wf]; omega)

@[simp] lemma encodeBE4_length (n : Nat) : (encodeBE4 n).length = 4 := rfl

/-- The header codec round-trips below `2 ^ 32`, whatever bytes follow. -/
lemma decodeBE4_encodeBE4 (n : Nat) (r : List Nat) (h : n < 2 ^ 32) :
    decodeBE4 (encodeBE4 n ++ r) = n := by
  simp only [encodeBE4, List.cons_append, List.nil_append, decodeBE4]
  omega

@[simp] lemma sendFrameBytes_length (p : List Nat) :
    (sendFrameBytes p).length = 4 + p.length := by
  simp [sendFrameBytes]

/-- The byte stream obtained by concatenating the frames of a list of
payloads, as a receiver sees them arrive back to back. -/
def framesJoin : List (List Nat) → List Nat
  | [] => []
  | p :: ps => sendFrameBytes p ++ framesJoin ps

lemma framesJoin_append (ps qs : List (List Nat)) :
    framesJoin (ps ++ qs) = framesJoin ps ++ framesJoin qs := by
  induction ps with
  | nil => simp [framesJoin]
  | cons p ps ih => simp [framesJoin, ih]

lemma framesJoin_eq_nil {ps : List (List Nat)} (h : framesJoin ps = []) :
    ps = [] := by
  cases ps with
  | nil => rfl
  | cons p ps => simp [framesJoin, sendFrameBytes, encodeBE4] at h

/-- A complete frame at the head of the stream is decoded whole: the payload
comes out and exactly the frame bytes are consumed. -/
lemma naiveExtract_frame (q r : List Nat) (h : q.length ≤ 1024 * 1024) :
    naiveExtract (sendFrameBytes q ++ r) = (some q, r) := by
  have hsplit : sendFrameBytes q ++ r = encodeBE4 q.length ++ (q ++ r) := by
    simp [sendFrameBytes]
  have hd : decodeBE4 (sendFrameBytes q ++ r) = q.length := by
    rw [hsplit]
    exact decodeBE4_encodeBE4 _ _ (by omega)
  have hlen : (sendFrameBytes q ++ r).length = 4 + q.length + r.length := by
    rw [List.length_append, sendFrameBytes_length]
  unfold naiveExtract
  rw [if_neg (by omega), hd, if_neg (by omega), if_neg (by omega)]
  have hdrop4 : (sendFrameBytes q ++ r).drop 4 = q ++ r := by
    rw [hsplit]
    exact List.drop_left' (by simp)
  have htake : (q ++ r).take q.length = q := List.take_left q r
  have hdropAll : (sendFrameBytes q ++ r).drop (4 + q.length) = r :=
    List.drop_left' (by simp)
  rw [hdrop4, htake, hdropAll]

/-- Decoding depends only on the first four bytes. -/
lemma decodeBE4_take4 (l : List Nat) : decodeBE4 l = decodeBE4 (l.take 4) := by
  match l with
  | [] => rfl
  | [a] => rfl
  | [a, b] => rfl
  | [a, b, c] => rfl
  | a :: b :: c :: d :: t => rfl

/-- A strict prefix of a frame (with anything after the cut) yields nothing
and is left in place: there is no premature extraction. -/
lemma naiveExtract_short (B t rest q : List Nat) (hq : q.length ≤ 1024 * 1024)
    (heq : B ++ t = sendFrameBytes q ++ rest) (hshort : B.length < 4 + q.length) :
    naiveExtract B = (none, B) := by
  by_cases h4 : B.length < 4
  · unfold naiveExtract
    rw [if_pos h4]
  · have htake : B.take 4 = encodeBE4 q.length := by
      have h1 : (B ++ t).take 4 = B.take 4 := by
        rw [List.take_append_eq_append_take]
        simp [Nat.sub_eq_zero_of_le (by omega : 4 ≤ B.length)]
      have h2 : (sendFrameBytes q ++ rest).take 4 = encodeBE4 q.length := by
        have : sendFrameBytes q ++ rest = encodeBE4 q.length ++ (q ++ rest) := by
          simp [sendFrameBytes]
        rw [this]
        exact List.take_left' (by simp)
      rw [← h1, heq, h2]
    have hd : decodeBE4 B = q.length := by
      rw [decodeBE4_take4, htake, ← List.append_nil (encodeBE4 q.length)]
      exact decodeBE4_encodeBE4 _ _ (by omega)
    unfold naiveExtract
    rw [if_neg h4, hd, if_neg (by omega), if_pos (by omega)]

/-- Drive the naive decoder until it yields nothing, collecting the decoded
payloads in order. The fuel only needs to dominate the number of buffered
bytes, since every successful extraction consumes at least the four header
bytes. -/
def drainNaive : Nat → List Nat → List (List Nat) × List Nat
  | 0, bs => ([], bs)
  | fuel + 1, bs =>
    match naiveExtract bs with
    | (some m, rest) =>
      let p := drainNaive fuel rest
      (m :: p.1, p.2)
    | (none, rest) => ([], rest)

@[simp] lemma naiveExtract_nil : naiveExtract [] = (none, []) := by decide

@[simp] lemma drainNaive_nil (fuel : Nat) : drainNaive fuel [] = ([], []) := by
  cases fuel with
  | zero => rfl
  | succ f => simp [drainNaive]

/-- Draining any prefix of a well-formed frame stream decodes exactly the
frames that are fully present, in order, and leaves a residue too short to
hold the next frame. -/
lemma drainNaive_spec : ∀ (qs : List (List Nat)) (B t : List Nat) (fuel : Nat),
    (∀ p ∈ qs, p.length ≤ 1024 * 1024) → B ++ t = framesJoin qs →
    B.length ≤ fuel →
    ∃ qs1 qs2 R, qs = qs1 ++ qs2 ∧ framesJoin qs1 ++ R = B ∧
      drainNaive fuel B = (qs1, R) ∧
      (R = [] ∨ ∃ q qs3, qs2 = q :: qs3 ∧ R.length < 4 + q.length) := by
  intro qs
  induction qs with
  | nil =>
    intro B t fuel _ heq _
    simp only [framesJoin] at heq
    obtain ⟨rfl, rfl⟩ := List.append_eq_nil.mp heq
    exact ⟨[], [], [], rfl, rfl, drainNaive_nil fuel, Or.inl rfl⟩
  | cons q qs' ih =>
    intro B t fuel hval heq hfuel
    have hq : q.length ≤ 1024 * 1024 := hval q (List.mem_cons_self q qs')
    have hval' : ∀ p ∈ qs', p.length ≤ 1024 * 1024 :=
      fun p hp => hval p (List.mem_cons_of_mem q hp)
    simp only [framesJoin] at heq
    by_cases hBF : 4 + q.length ≤ B.length
    · -- the head frame is fully contained in B
      have h1 : B.take (4 + q.length) = sendFrameBytes q := by
        have e1 : (B ++ t).take (4 + q.length) = B.take (4 + q.length) := by
          rw [List.take_append_eq_append_take]
          simp [Nat.sub_eq_zero_of_le hBF]
        have e2 : (sendFrameBytes q ++ framesJoin qs').take (4 + q.length) =
            sendFrameBytes q := List.take_left' (sendFrameBytes_length q)
        rw [← e1, heq, e2]
      have hBdecomp : B = sendFrameBytes q ++ B.drop (4 + q.length) := by
        conv_lhs => rw [← List.take_append_drop (4 + q.length) B]
        rw [h1]
      have hB't : B.drop (4 + q.length) ++ t = framesJoin qs' := by
        have h2 := heq
        rw [hBdecomp, List.append_assoc] at h2
        exact List.append_inj_right h2 (by rw [sendFrameBytes_length])
      have hext : naiveExtract B = (some q, B.drop (4 + q.length)) := by
        conv_lhs => rw [hBdecomp]
        exact naiveExtract_frame q _ hq
      cases fuel with
      | zero => exact absurd hfuel (by omega)
      | succ f =>
        have hstep : drainNaive (f + 1) B =
            (q :: (drainNaive f (B.drop (4 + q.length))).1,
              (drainNaive f (B.drop (4 + q.length))).2) := by
          simp [drainNaive, hext]
        have hlenB' : (B.drop (4 + q.length)).length ≤ f := by
          simp only [List.length_drop]
          omega
        obtain ⟨qs1, qs2, R, hqs, hfj, hdr, hres⟩ :=
          ih (B.drop (4 + q.length)) t f hval' hB't hlenB'
        refine ⟨q :: qs1, qs2, R, by simp [hqs], ?_, ?_, hres⟩
        · simp only [framesJoin]
          rw [List.append_assoc, hfj, ← hBdecomp]
        · rw [hstep, hdr]
    · -- B is a strict prefix of the head frame: nothing can come out yet
      have hext : naiveExtract B = (none, B) :=
        naiveExtract_short B t (framesJoin qs') q hq heq (by omega)
      have hdrain : drainNaive fuel B = ([], B) := by
        cases fuel with
        | zero => rfl
        | succ f => simp [drainNaive, hext]
      exact ⟨[], q :: qs', B, rfl, rfl, hdrain,
        Or.inr ⟨q, qs', rfl, by omega⟩⟩

/-- The harness driver on the real buffer: call `extractMessage` until it
reports no message, collecting the extracted payloads in order. -/
def drainBuffer : Nat → MessageBuffer → List (List Nat) × MessageBuffer
  | 0, mb => ([], mb)
  | fuel + 1, mb =>
    match mb.extractMessage [] with
    | (true, m, mb2) =>
      let p := drainBuffer fuel mb2
      (m :: p.1, p.2)
    | (false, _, mb2) => ([], mb2)

/-- Draining the real buffer tracks draining the naive decoder on its unread
tail, step for step. -/
lemma drainBuffer_sim : ∀ (fuel : Nat) (mb : MessageBuffer), mb.Wf →
    (drainBuffer fuel mb).1 = (drainNaive fuel mb.tailBytes).1 ∧
    (drainBuffer fuel mb).2.tailBytes = (drainNaive fuel mb.tailBytes).2 ∧
    (drainBuffer fuel mb).2.Wf := by
  intro fuel
  induction fuel with
  | zero => exact fun mb h => ⟨rfl, rfl, h⟩
  | succ f ihf =>
    intro mb h
    obtain ⟨hs1, hs2, hs3, hs4⟩ := MessageBuffer.extractMessage_sim mb [] h
    rcases hne : naiveExtract mb.tailBytes with ⟨r, rest⟩
    rcases hext : mb.extractMessage [] with ⟨b, m, mb2⟩
    rw [hext] at hs1 hs2 hs3 hs4
    rw [hne] at hs1 hs2 hs3
    simp only at hs1 hs2 hs3 hs4
    cases b with
    | false =>
      cases r with
      | some m' => simp at hs1
      | none =>
        have hdb : drainBuffer (f + 1) mb = ([], mb2) := by
          simp [drainBuffer, hext]
        have hdn : drainNaive (f + 1) mb.tailBytes = ([], rest) := by
          simp [drainNaive, hne]
        rw [hdb, hdn]
        exact ⟨rfl, hs3, hs4⟩
    | true =>
      cases r with
      | none => simp at hs1
      | some m' =>
        have hm : m = m' := by simpa using hs2
        have hdb : drainBuffer (f + 1) mb =
            (m :: (drainBuffer f mb2).1, (drainBuffer f mb2).2) := by
          simp [drainBuffer, hext]
        have hdn : drainNaive (f + 1) mb.tailBytes =
            (m' :: (drainNaive f rest).1, (drainNaive f rest).2) := by
          simp [drainNaive, hne]
        obtain ⟨ih1, ih2, ih3⟩ := ihf mb2 hs4
        rw [hdb, hdn, hm]
        refine ⟨?_, ?_, ih3⟩
        · rw [ih1, hs3]
        · rw [ih2, hs3]

/-- Concatenation of the chunks fed to the buffer, in order. -/
def joinChunks : List (List Nat) → List Nat
  | [] => []
  | c :: cs => c ++ joinChunks cs

/-- Feed the chunks one at a time through `addData`, draining after each
chunk, as the receive loop does over successive receive cycles. -/
def feedDrain : MessageBuffer → List (List Nat) → List (List Nat) × MessageBuffer
  | mb, [] => ([], mb)
  | mb, c :: cs =>
    let mb1 := (mb.addData c).2
    let p := drainBuffer mb1.buffer_.length mb1
    let p2 := feedDrain p.2 cs
    (p.1 ++ p2.1, p2.2)

@[simp] lemma framesJoin_cons_length (q : List Nat) (qs : List (List Nat)) :
    (framesJoin (q :: qs)).length = 4 + q.length + (framesJoin qs).length := by
  simp [framesJoin]
  try omega

/-- Feeding any chunking of a well-formed frame stream and draining after
each chunk recovers exactly the payload sequence, leaving nothing buffered. -/
lemma feedDrain_spec : ∀ (cs : List (List Nat)) (qs : List (List Nat))
    (mb : MessageBuffer),
    (∀ p ∈ qs, p.length ≤ 1024 * 1024) → mb.Wf →
    (mb.tailBytes = [] ∨
      ∃ q qs3, qs = q :: qs3 ∧ mb.tailBytes.length < 4 + q.length) →
    mb.tailBytes ++ joinChunks cs = framesJoin qs →
    (feedDrain mb cs).1 = qs ∧ (feedDrain mb cs).2.tailBytes = [] := by
  intro cs
  induction cs with
  | nil =>
    intro qs mb _ _ hres heq
    simp only [joinChunks, List.append_nil] at heq
    rcases hres with htail | ⟨q, qs3, rfl, hlen⟩
    · have hqs : qs = [] := framesJoin_eq_nil (by rw [← heq, htail])
      subst hqs
      exact ⟨rfl, htail⟩
    · exfalso
      have : mb.tailBytes.length = (framesJoin (q :: qs3)).length := by rw [heq]
      simp only [framesJoin_cons_length] at this
      omega
  | cons c cs ihc =>
    intro qs mb hval hwf hres heq
    have hwf1 : ((mb.addData c).2).Wf := mb.addData_wf c hwf
    have htail1 : ((mb.addData c).2).tailBytes = mb.tailBytes ++ c :=
      mb.addData_tailBytes c hwf
    have hfuel : ((mb.addData c).2).tailBytes.length ≤
        ((mb.addData c).2).buffer_.length := by
      rw [MessageBuffer.tailBytes_length]
      omega
    have heq1 : ((mb.addData c).2).tailBytes ++ joinChunks cs = framesJoin qs := by
      rw [htail1, List.append_assoc]
      simpa [joinChunks] using heq
    obtain ⟨qs1, qs2, R, hqs, hfj, hdr, hresR⟩ :=
      drainNaive_spec qs ((mb.addData c).2).tailBytes (joinChunks cs)
        ((mb.addData c).2).buffer_.length hval heq1 hfuel
    obtain ⟨hd1, hd2, hd3⟩ :=
      drainBuffer_sim ((mb.addData c).2).buffer_.length ((mb.addData c).2) hwf1
    have hdb1 : (drainBuffer ((mb.addData c).2).buffer_.length
        ((mb.addData c).2)).1 = qs1 := by rw [hd1, hdr]
    have hdb2 : (drainBuffer ((mb.addData c).2).buffer_.length
        ((mb.addData c).2)).2.tailBytes = R := by rw [hd2, hdr]
    have hval2 : ∀ p ∈ qs2, p.length ≤ 1024 * 1024 := by
      intro p hp
      exact hval p (by rw [hqs]; exact List.mem_append_right qs1 hp)
    have heq2 : (drainBuffer ((mb.addData c).2).buffer_.length
        ((mb.addData c).2)).2.tailBytes ++ joinChunks cs = framesJoin qs2 := by
      rw [hdb2]
      have hjoin : framesJoin qs1 ++ (R ++ joinChunks cs) =
          framesJoin qs1 ++ framesJoin qs2 := by
        rw [← List.append_assoc, hfj, heq1, hqs, framesJoin_append]
      exact List.append_inj_right hjoin rfl
    have hres2 : (drainBuffer ((mb.addData c).2).buffer_.length
        ((mb.addData c).2)).2.tailBytes = [] ∨
        ∃ q qs3, qs2 = q :: qs3 ∧
          (drainBuffer ((mb.addData c).2).buffer_.length
            ((mb.addData c).2)).2.tailBytes.length < 4 + q.length := by
      rw [hdb2]
      exact hresR
    obtain ⟨ihres1, ihres2⟩ := ihc qs2 _ hval2 hd3 hres2 heq2
    constructor
    · simp only [feedDrain]
      rw [hdb1, ihres1, hqs]
    · simp only [feedDrain]
      exact ihres2

/-! ## Claim C1: encode-then-decode round trip -/

/-- C1: for every payload of length between 1 and 1,048,576 bytes, framing it
as `sendFramedMessage` does (4-byte unsigned big-endian length then the
payload) and feeding the frame to a fresh `MessageBuffer` via `addData` makes
`extractMessage` return `true` with exactly the original payload bytes. -/
theorem frame_roundtrip (p : List Nat) (h1 : 1 ≤ p.length)
    (h2 : p.length ≤ 1048576) :
    ((MessageBuffer.empty.addData (sendFrameBytes p)).2.extractMessage []).1
      = true ∧
    ((MessageBuffer.empty.addData (sendFrameBytes p)).2.extractMessage []).2.1
      = p := by
  have hwf : MessageBuffer.empty.Wf := by
    simp [MessageBuffer.empty, MessageBuffer.Wf]
  have htail : ((MessageBuffer.empty.addData (sendFrameBytes p)).2).tailBytes =
      sendFrameBytes p := by
    rw [MessageBuffer.addData_tailBytes _ _ hwf]
    simp [MessageBuffer.empty, MessageBuffer.tailBytes]
  have hwf1 := MessageBuffer.addData_wf MessageBuffer.empty (sendFrameBytes p) hwf
  obtain ⟨hs1, hs2, _, _⟩ :=
    MessageBuffer.extractMessage_sim ((MessageBuffer.empty.addData
      (sendFrameBytes p)).2) [] hwf1
  have hne : naiveExtract (sendFrameBytes p) = (some p, []) := by
    have h := naiveExtract_frame p [] (by omega)
    simpa using h
  rw [htail, hne] at hs1 hs2
  exact ⟨by simpa using hs1, by simpa using hs2⟩

/-- Witness for C1 at the one-byte payload `[65]`. -/
theorem frame_roundtrip_check :
    ((MessageBuffer.empty.addData (sendFrameBytes [65])).2.extractMessage []).1
      = true ∧
    ((MessageBuffer.empty.addData (sendFrameBytes [65])).2.extractMessage []).2.1
      = [65] :=
  frame_roundtrip [65] (by decide) (by decide)

/-! ## Claim C2: an oversize declared length clears the whole buffered state -/

/-- C2: whenever the four bytes at the read cursor decode to a value strictly
above 1,048,576, `extractMessage` discards the entire buffered state (buffer
emptied, cursor reset to 0) and returns no message — this covers in
particular every state in which a well-formed frame follows the corrupt
header, so those bytes are lost for good. -/
theorem oversize_clears (mb : MessageBuffer) (msg : List Nat)
    (h4 : 4 ≤ mb.tailBytes.length)
    (hover : decodeBE4 mb.tailBytes > 1048576) :
    mb.extractMessage msg =
      (false, msg, { buffer_ := [], readPos_ := 0 }) := by
  have hlen := mb.tailBytes_length
  have h4' : ¬ mb.buffer_.length - mb.readPos_ < 4 := by omega
  have hov' : decodeBE4 (mb.buffer_.drop mb.readPos_) > 1024 * 1024 := by
    have he : mb.tailBytes = mb.buffer_.drop mb.readPos_ := rfl
    rw [he] at hover
    omega
  simp [MessageBuffer.extractMessage, MessageBuffer.clear, h4', hov']

/-- Witness for C2: a 1,048,577 length header followed by a perfectly valid
one-byte frame; everything is discarded. -/
theorem oversize_clears_check :
    MessageBuffer.extractMessage
        { buffer_ := [0, 16, 0, 1, 0, 0, 0, 1, 65], readPos_ := 0 } [] =
      (false, [], { buffer_ := [], readPos_ := 0 }) :=
  oversize_clears { buffer_ := [0, 16, 0, 1, 0, 0, 0, 1, 65], readPos_ := 0 }
    [] (by decide) (by decide)

/-! ## Claim C3: decoding is invariant under chunk boundaries -/

/-- C3: for every sequence of payloads and every way of splitting the
concatenated frames into chunks fed by successive `addData` calls, draining
with `extractMessage` recovers exactly the payload sequence (so the result
coincides with feeding the bytes in a single chunk); moreover
`extractMessage` never returns a message while fewer than `4 + N` bytes sit
past the cursor, where `N` is the declared length. -/
theorem chunked_decode :
    (∀ (ps cs : List (List Nat)),
      (∀ p ∈ ps, 1 ≤ p.length ∧ p.length ≤ 1048576) →
      joinChunks cs = framesJoin ps →
      (feedDrain MessageBuffer.empty cs).1 = ps) ∧
    (∀ (mb : MessageBuffer) (msg : List Nat),
      mb.tailBytes.length < 4 + decodeBE4 mb.tailBytes →
      (mb.extractMessage msg).1 = false) := by
  constructor
  · intro ps cs hval hchunks
    have hval' : ∀ p ∈ ps, p.length ≤ 1024 * 1024 := by
      intro p hp
      have := (hval p hp).2
      omega
    have hwf : MessageBuffer.empty.Wf := by
      simp [MessageBuffer.empty, MessageBuffer.Wf]
    have htail : MessageBuffer.empty.tailBytes = [] := rfl
    exact (feedDrain_spec cs ps MessageBuffer.empty hval' hwf (Or.inl htail)
      (by rw [htail, List.nil_append, hchunks])).1
  · intro mb msg hlt
    have hlen := mb.tailBytes_length
    have he : mb.tailBytes = mb.buffer_.drop mb.readPos_ := rfl
    rw [he] at hlt hlen
    by_cases hc1 : mb.buffer_.length - mb.readPos_ < 4
    · simp [MessageBuffer.extractMessage, hc1]
    · by_cases hc2 : decodeBE4 (mb.buffer_.drop mb.readPos_) > 1024 * 1024
      · simp [MessageBuffer.extractMessage, hc1, hc2]
      · have hc3 : mb.buffer_.length - mb.readPos_ <
            4 + decodeBE4 (mb.buffer_.drop mb.readPos_) := by omega
        simp [MessageBuffer.extractMessage, hc1, hc2, hc3]

/-- Witness for C3: the single frame for payload `[65]` fed in three chunks
that split both the header and the header/payload boundary. -/
theorem chunked_decode_check :
    (feedDrain MessageBuffer.empty [[0], [0, 0, 1], [65]]).1 = [[65]] :=
  chunked_decode.1 [[65]] [[0], [0, 0, 1], [65]] (by decide) (by decide)

/-! ## Claim C10: an incomplete frame leaves the codec state untouched -/

/-- C10: when `extractMessage` fails for lack of data — fewer than 4 bytes
past the cursor, or a declared length of at most 1,048,576 with fewer than
`4 + N` bytes available — it consumes nothing, moves nothing, performs no
compaction, and leaves the out-parameter untouched. -/
theorem incomplete_leaves_state (mb : MessageBuffer) (msg : List Nat)
    (h : mb.tailBytes.length < 4 ∨
      (decodeBE4 mb.tailBytes ≤ 1048576 ∧
        mb.tailBytes.length < 4 + decodeBE4 mb.tailBytes)) :
    mb.extractMessage msg = (false, msg, mb) := by
  have hlen := mb.tailBytes_length
  have he : mb.tailBytes = mb.buffer_.drop mb.readPos_ := rfl
  rw [he] at h hlen
  by_cases hc1 : mb.buffer_.length - mb.readPos_ < 4
  · simp [MessageBuffer.extractMessage, hc1]
  · rcases h with h' | ⟨hle, hlt⟩
    · omega
    · have hc2 : ¬ decodeBE4 (mb.buffer_.drop mb.readPos_) > 1024 * 1024 := by
        omega
      have hc3 : mb.buffer_.length - mb.readPos_ <
          4 + decodeBE4 (mb.buffer_.drop mb.readPos_) := by omega
      simp [MessageBuffer.extractMessage, hc1, hc2, hc3]

/-- Witness for C10: a declared length of 5 with only two payload bytes
buffered; the state and the out-parameter survive unchanged. -/
theorem incomplete_leaves_state_check :
    MessageBuffer.extractMessage
        { buffer_ := [0, 0, 0, 5, 1, 2], readPos_ := 0 } [9] =
      (false, [9], { buffer_ := [0, 0, 0, 5, 1, 2], readPos_ := 0 }) :=
  incomplete_leaves_state { buffer_ := [0, 0, 0, 5, 1, 2], readPos_ := 0 } [9]
    (by decide)

/-! ## Claim C5: compaction transparency -/

/-- One call against a decoder: append bytes or attempt one extraction. -/
inductive BufOp where
  | add (data : List Nat)
  | extract
deriving DecidableEq, Repr

/-- The observable result of one call: the boolean returned by `addData` or
the success/payload outcome of `extractMessage`. -/
inductive BufOut where
  | addRes (ok : Bool)
  | extRes (r : Option (List Nat))
deriving DecidableEq, Repr

/-- Run a call sequence against the real cursor-tracking, compacting
`MessageBuffer`, collecting each observable result. -/
def runBuffer : MessageBuffer → List BufOp → List BufOut
  | _, [] => []
  | mb, BufOp.add d :: ops =>
    BufOut.addRes (mb.addData d).1 :: runBuffer (mb.addData d).2 ops
  | mb, BufOp.extract :: ops =>
    match mb.extractMessage [] with
    | (true, m, mb2) => BufOut.extRes (some m) :: runBuffer mb2 ops
    | (false, _, mb2) => BufOut.extRes none :: runBuffer mb2 ops

/-- Modelled from the spec: run the same call sequence against the naive
decoder that never compacts, holding the unread bytes as a plain list whose
consumed prefix is erased on extraction. -/
def runNaive : List Nat → List BufOp → List BufOut
  | _, [] => []
  | bs, BufOp.add d :: ops => BufOut.addRes true :: runNaive (bs ++ d) ops
  | bs, BufOp.extract :: ops =>
    BufOut.extRes (naiveExtract bs).1 :: runNaive (naiveExtract bs).2 ops

lemma runBuffer_sim : ∀ (ops : List BufOp) (mb : MessageBuffer), mb.Wf →
    runBuffer mb ops = runNaive mb.tailBytes ops := by
  intro ops
  induction ops with
  | nil => intro mb _; rfl
  | cons op ops ihop =>
    intro mb h
    cases op with
    | add d =>
      have h1 : (mb.addData d).1 = true := mb.addData_fst d
      have h2 := mb.addData_tailBytes d h
      have h3 := mb.addData_wf d h
      simp only [runBuffer, runNaive, h1, ihop _ h3, h2]
    | extract =>
      obtain ⟨hs1, hs2, hs3, hs4⟩ := MessageBuffer.extractMessage_sim mb [] h
      rcases hne : naiveExtract mb.tailBytes with ⟨r, rest⟩
      rcases hext : mb.extractMessage [] with ⟨b, m, mb2⟩
      rw [hext] at hs1 hs2 hs3 hs4
      rw [hne] at hs1 hs2 hs3
      simp only at hs1 hs2 hs3 hs4
      cases b with
      | false =>
        cases r with
        | some m' => simp at hs1
        | none =>
          simp only [runBuffer, runNaive, hext, hne]
          rw [ihop mb2 hs4, hs3]
      | true =>
        cases r with
        | none => simp at hs1
        | some m' =>
          have hm : m = m' := by simpa using hs2
          simp only [runBuffer, runNaive, hext, hne]
          rw [ihop mb2 hs4, hs3, hm]

/-- C5: the cursor-tracking, compacting `MessageBuffer` is observationally
equivalent to the naive decoder that never compacts — every call sequence
produces identical results — and `compactIfNeeded` never discards unread
bytes. -/
theorem compaction_transparent :
    (∀ ops : List BufOp, runBuffer MessageBuffer.empty ops = runNaive [] ops) ∧
    (∀ mb : MessageBuffer, mb.compactIfNeeded.tailBytes = mb.tailBytes) := by
  constructor
  · intro ops
    have hwf : MessageBuffer.empty.Wf := by
      simp [MessageBuffer.empty, MessageBuffer.Wf]
    have h := runBuffer_sim ops MessageBuffer.empty hwf
    simpa [MessageBuffer.empty, MessageBuffer.tailBytes] using h
  · exact MessageBuffer.compactIfNeeded_tailBytes

/-! ## Claim C4: the compaction rule around addData and extractMessage -/

/-- After compaction from a state with a positive cursor, the cursor is at
most half the buffer length. -/
lemma MessageBuffer.compactIfNeeded_half (mb : MessageBuffer)
    (hp : 0 < mb.readPos_) :
    mb.compactIfNeeded.readPos_ ≤ mb.compactIfNeeded.buffer_.length / 2 := by
  unfold MessageBuffer.compactIfNeeded
  split
  · simp
  · rename_i hcond
    omega

/-- Counterexample to C4 as stated: `addData` compacts before appending, not
after, so an append may leave the buffer above the 1MB bound with a nonzero
cursor — here a buffer of exactly 1,048,576 bytes with cursor 5 takes one
more byte and ends with 1,048,577 bytes while the cursor stays at 5. -/
theorem compaction_rule_cex :
    ((MessageBuffer.mk (List.replicate 1048576 0) 5).addData [0]).2.buffer_.length
        > 1048576 ∧
    ((MessageBuffer.mk (List.replicate 1048576 0) 5).addData [0]).2.readPos_ ≠ 0 := by
  have hb : (MessageBuffer.mk (List.replicate 1048576 0) 5).buffer_ =
      List.replicate 1048576 0 := rfl
  have hp : (MessageBuffer.mk (List.replicate 1048576 0) 5).readPos_ = 5 := rfl
  have hnoop : (MessageBuffer.mk (List.replicate 1048576 0) 5).compactIfNeeded =
      MessageBuffer.mk (List.replicate 1048576 0) 5 := by
    unfold MessageBuffer.compactIfNeeded
    rw [if_neg]
    rw [hb, hp, List.length_replicate]
    omega
  have haddeq : ((MessageBuffer.mk (List.replicate 1048576 0) 5).addData [0]).2 =
      MessageBuffer.mk
        ((MessageBuffer.mk (List.replicate 1048576 0) 5).compactIfNeeded.buffer_
          ++ [0])
        ((MessageBuffer.mk
          (List.replicate 1048576 0) 5).compactIfNeeded.readPos_) := rfl
  rw [hnoop, hb, hp] at haddeq
  rw [haddeq]
  have hb2 : (MessageBuffer.mk (List.replicate 1048576 0 ++ [0]) 5).buffer_ =
      List.replicate 1048576 0 ++ [0] := rfl
  have hp2 : (MessageBuffer.mk (List.replicate 1048576 0 ++ [0]) 5).readPos_ =
      5 := rfl
  rw [hb2, hp2, List.length_append, List.length_replicate]
  have h1 : [(0 : Nat)].length = 1 := rfl
  rw [h1]
  omega

/-- C4 amended: `addData` appends the new bytes at the unread tail but runs
compaction *before* the append rather than after, so what holds after every
`addData` is that the cursor is at most half the buffer length (the
`cursor > length/2` half of the rule can never be violated), while the
buffer length may exceed 1MB with a nonzero cursor until a later call
compacts; after `extractMessage` the cursor-at-most-half-length invariant is
preserved, with the tail at offset 0 whenever the extraction compacted or
cleared. -/
theorem compaction_rule_amended :
    (∀ (mb : MessageBuffer) (d : List Nat),
      (mb.addData d).2.readPos_ ≤ (mb.addData d).2.buffer_.length / 2) ∧
    (∀ (mb : MessageBuffer) (d : List Nat), mb.Wf →
      (mb.addData d).2.tailBytes = mb.tailBytes ++ d) ∧
    (∀ (mb : MessageBuffer) (msg : List Nat),
      mb.readPos_ ≤ mb.buffer_.length / 2 →
      (mb.extractMessage msg).2.2.readPos_ ≤
        (mb.extractMessage msg).2.2.buffer_.length / 2) := by
  refine ⟨?_, ?_, ?_⟩
  · intro mb d
    unfold MessageBuffer.addData
    simp only [List.length_append]
    unfold MessageBuffer.compactIfNeeded
    split
    · simp
    · rename_i hcond
      omega
  · exact fun mb d h => mb.addData_tailBytes d h
  · intro mb msg hhalf
    by_cases hc1 : mb.buffer_.length - mb.readPos_ < 4
    · simpa [MessageBuffer.extractMessage, hc1] using hhalf
    · by_cases hc2 : decodeBE4 (mb.buffer_.drop mb.readPos_) > 1024 * 1024
      · simp [MessageBuffer.extractMessage, MessageBuffer.clear, hc1, hc2]
      · by_cases hc3 : mb.buffer_.length - mb.readPos_ <
            4 + decodeBE4 (mb.buffer_.drop mb.readPos_)
        · simpa [MessageBuffer.extractMessage, hc1, hc2, hc3] using hhalf
        · simp only [MessageBuffer.extractMessage, if_neg hc1, if_neg hc2,
            if_neg hc3]
          exact MessageBuffer.compactIfNeeded_half _ (by simp)

/-- Witness for the amended C4 at a small concrete state. -/
theorem compaction_rule_amended_check :
    ((MessageBuffer.mk [0, 0, 0, 1, 65] 0).addData [7]).2.tailBytes =
        [0, 0, 0, 1, 65] ++ [7] ∧
    ((MessageBuffer.mk [0, 0, 0, 1, 65] 0).extractMessage []).2.2.readPos_ ≤
      ((MessageBuffer.mk [0, 0, 0, 1, 65] 0).extractMessage
        []).2.2.buffer_.length / 2 :=
  ⟨compaction_rule_amended.2.1 (MessageBuffer.mk [0, 0, 0, 1, 65] 0) [7]
      (by decide),
    compaction_rule_amended.2.2 (MessageBuffer.mk [0, 0, 0, 1, 65] 0) []
      (by decide)⟩

/-! ## Claim C6: MessageQueue is FIFO and pop never waits -/

/-- `MessageQueue` from `message.h`: a queue of `(source, message)` pairs.
The mutex only serializes access and has no sequential effect, so the
single-producer model is the plain queue contents. -/
structure MessageQueue where
  messages_ : List (String × String)
deriving DecidableEq, Repr

/-- `MessageQueue::push`: appends one `(source, message)` entry at the back. -/
def MessageQueue.push (q : MessageQueue) (source message : String) :
    MessageQueue :=
  { messages_ := q.messages_ ++ [(source, message)] }

/-- `MessageQueue::pop`: returns `false` (here `none`) on an empty queue
without modifying it, otherwise removes and returns the front entry. -/
def MessageQueue.pop (q : MessageQueue) :
    Option (String × String) × MessageQueue :=
  match q.messages_ with
  | [] => (none, q)
  | m :: rest => (some m, { messages_ := rest })

/-- The queue in its initial state. -/
def MessageQueue.emptyQueue : MessageQueue := { messages_ := [] }

/-- Push a list of entries in order, as a single producer does. -/
def pushAll (q : MessageQueue) (es : List (String × String)) : MessageQueue :=
  es.foldl (fun acc e => acc.push e.1 e.2) q

/-- Pop repeatedly, collecting the returned entries in order. -/
def popAll : Nat → MessageQueue → List (String × String)
  | 0, _ => []
  | f + 1, q =>
    match q.pop with
    | (some m, q2) => m :: popAll f q2
    | (none, _) => []

lemma pushAll_messages : ∀ (es : List (String × String)) (q : MessageQueue),
    (pushAll q es).messages_ = q.messages_ ++ es := by
  intro es
  induction es with
  | nil => intro q; simp [pushAll]
  | cons e es ihe =>
    intro q
    have h : pushAll q (e :: es) = pushAll (q.push e.1 e.2) es := rfl
    rw [h, ihe]
    simp [MessageQueue.push]

lemma popAll_messages : ∀ (f : Nat) (q : MessageQueue),
    popAll f q = q.messages_.take f := by
  intro f
  induction f with
  | zero => intro q; simp [popAll]
  | succ f ihf =>
    intro q
    rcases hm : q.messages_ with _ | ⟨m, rest⟩
    · simp [popAll, MessageQueue.pop, hm]
    · simp [popAll, MessageQueue.pop, hm, ihf]

/-- C6: the queue is FIFO for a single producer — popping returns the pushed
`(source, payload)` entries in push order with both fields intact — and a pop
on an empty queue signals empty without modifying the queue. -/
theorem queue_fifo :
    (∀ es : List (String × String),
      popAll es.length (pushAll MessageQueue.emptyQueue es) = es) ∧
    (∀ q : MessageQueue, q.messages_ = [] → q.pop = (none, q)) := by
  constructor
  · intro es
    rw [popAll_messages, pushAll_messages]
    simp [MessageQueue.emptyQueue]
  · intro q h
    simp [MessageQueue.pop, h]

/-- Witness for C6 with two concrete entries and the empty queue. -/
theorem queue_fifo_check :
    popAll 2 (pushAll MessageQueue.emptyQueue
        [("Server", "alpha"), ("Client", "beta")]) =
      [("Server", "alpha"), ("Client", "beta")] ∧
    MessageQueue.pop { messages_ := [] } =
      (none, { messages_ := [] }) :=
  ⟨queue_fifo.1 [("Server", "alpha"), ("Client", "beta")],
    queue_fifo.2 { messages_ := [] } rfl⟩

/-! ## Claim C7: the sendFramedMessage contract -/

/-- One iteration of the send loop, as decided by the transport:
`pollErr` is a negative poll; `pollTimeout` covers a zero poll result or a
poll without `POLLOUT`; `sendAgain` is a negative `send` with
`EAGAIN`/`EWOULDBLOCK`; `sendFail` is any other non-positive `send`;
`sendOk n` is a `send` that accepted `n` bytes. -/
inductive NetEvent where
  | pollErr
  | pollTimeout
  | sendAgain
  | sendFail
  | sendOk (n : Nat)
deriving DecidableEq, Repr

/-- The partial-write loop of `sendFramedMessage`, driven by a trace of
transport events. Returns `none` when the trace runs out with the loop still
going, otherwise the returned boolean together with the byte chunks the
transport accepted, in order. -/
def sendLoop (frame : List Nat) : List NetEvent → Nat → Option (Bool × List (List Nat))
  | [], bytesSent =>
    if frame.length ≤ bytesSent then some (true, []) else none
  | NetEvent.pollErr :: _, bytesSent =>
    if frame.length ≤ bytesSent then some (true, []) else some (false, [])
  | NetEvent.pollTimeout :: rest, bytesSent =>
    if frame.length ≤ bytesSent then some (true, [])
    else sendLoop frame rest bytesSent
  | NetEvent.sendAgain :: rest, bytesSent =>
    if frame.length ≤ bytesSent then some (true, [])
    else sendLoop frame rest bytesSent
  | NetEvent.sendFail :: _, bytesSent =>
    if frame.length ≤ bytesSent then some (true, []) else some (false, [])
  | NetEvent.sendOk n :: rest, bytesSent =>
    if frame.length ≤ bytesSent then some (true, [])
    else
      match sendLoop frame rest (bytesSent + n) with
      | some (b, ws) => some (b, (frame.drop bytesSent).take n :: ws)
      | none => none

/-- `sendFramedMessage`: rejects a negative descriptor or an empty payload
up front, otherwise builds the frame once and runs the poll/send loop. -/
def sendFramedMessage (socketFd : Int) (message : List Nat)
    (evs : List NetEvent) : Option (Bool × List (List Nat)) :=
  if socketFd < 0 ∨ message = [] then some (false, [])
  else sendLoop (sendFrameBytes message) evs 0

lemma sendLoop_true_writes : ∀ (evs : List NetEvent) (frame : List Nat)
    (sent : Nat) (ws : List (List Nat)),
    sendLoop frame evs sent = some (true, ws) →
    joinChunks ws = frame.drop sent := by
  intro evs
  induction evs with
  | nil =>
    intro frame sent ws h
    by_cases hle : frame.length ≤ sent
    · simp only [sendLoop, if_pos hle] at h
      obtain ⟨rfl⟩ : ws = [] := by simpa using h.symm
      simp [joinChunks, List.drop_eq_nil_of_le hle]
    · simp [sendLoop, if_neg hle] at h
  | cons e rest ihe =>
    intro frame sent ws h
    by_cases hle : frame.length ≤ sent
    · cases e <;>
        · simp only [sendLoop, if_pos hle] at h
          obtain ⟨rfl⟩ : ws = [] := by simpa using h.symm
          simp [joinChunks, List.drop_eq_nil_of_le hle]
    · cases e with
      | pollErr => simp [sendLoop, if_neg hle] at h
      | pollTimeout =>
        simp only [sendLoop, if_neg hle] at h
        exact ihe frame sent ws h
      | sendAgain =>
        simp only [sendLoop, if_neg hle] at h
        exact ihe frame sent ws h
      | sendFail => simp [sendLoop, if_neg hle] at h
      | sendOk n =>
        simp only [sendLoop, if_neg hle] at h
        rcases hin : sendLoop frame rest (sent + n) with _ | ⟨b, ws'⟩
        · rw [hin] at h; simp at h
        · rw [hin] at h
          obtain ⟨hb, hws⟩ : b = true ∧ (frame.drop sent).take n :: ws' = ws := by
            have h' := h
            simp at h'
            exact ⟨h'.1, h'.2⟩
          subst hb
          rw [← hws]
          have hrec := ihe frame (sent + n) ws' hin
          simp only [joinChunks, hrec]
          exact List.drop_take_append_drop frame sent n

/-- C7: `sendFramedMessage` fails immediately, writing nothing, on a negative
descriptor or an empty payload; it imposes no upper size bound of its own
(any non-empty payload can be fully sent); a would-block or poll timeout
iteration merely retries while a poll error or any other failed write aborts
with `false`; and a `true` return means the transport accepted exactly every
framed byte, in order. -/
theorem sendFramed_contract :
    (∀ (fd : Int) (msg : List Nat) (evs : List NetEvent), fd < 0 →
      sendFramedMessage fd msg evs = some (false, [])) ∧
    (∀ (fd : Int) (evs : List NetEvent),
      sendFramedMessage fd [] evs = some (false, [])) ∧
    (∀ (fd : Int) (msg : List Nat), 0 ≤ fd → msg ≠ [] →
      sendFramedMessage fd msg [NetEvent.sendOk (4 + msg.length)] =
        some (true, [sendFrameBytes msg])) ∧
    (∀ (frame : List Nat) (evs : List NetEvent) (sent : Nat),
      sent < frame.length →
      sendLoop frame (NetEvent.pollTimeout :: evs) sent =
          sendLoop frame evs sent ∧
      sendLoop frame (NetEvent.sendAgain :: evs) sent =
          sendLoop frame evs sent ∧
      sendLoop frame (NetEvent.sendFail :: evs) sent = some (false, []) ∧
      sendLoop frame (NetEvent.pollErr :: evs) sent = some (false, [])) ∧
    (∀ (fd : Int) (msg : List Nat) (evs : List NetEvent) (ws : List (List Nat)),
      sendFramedMessage fd msg evs = some (true, ws) →
      joinChunks ws = sendFrameBytes msg) := by
  refine ⟨?_, ?_, ?_, ?_, ?_⟩
  · intro fd msg evs hfd
    simp [sendFramedMessage, hfd]
  · intro fd evs
    simp [sendFramedMessage]
  · intro fd msg hfd hmsg
    have hne : ¬ (fd < 0 ∨ msg = []) := by
      push_neg
      exact ⟨by omega, hmsg⟩
    have hlen : (sendFrameBytes msg).length = 4 + msg.length :=
      sendFrameBytes_length msg
    have hpos : ¬ (sendFrameBytes msg).length ≤ 0 := by
      rw [hlen]; omega
    have hdone : (sendFrameBytes msg).length ≤ 0 + (4 + msg.length) := by
      rw [hlen]; omega
    simp only [sendFramedMessage, if_neg hne, sendLoop, if_neg hpos,
      if_pos hdone]
    have htake : ((sendFrameBytes msg).drop 0).take (4 + msg.length) =
        sendFrameBytes msg := by
      rw [List.drop_zero]
      exact List.take_of_length_le (by rw [hlen])
    rw [htake]
  · intro frame evs sent hlt
    have hne : ¬ frame.length ≤ sent := by omega
    refine ⟨?_, ?_, ?_, ?_⟩ <;> simp [sendLoop, hne]
  · intro fd msg evs ws h
    by_cases hcut : fd < 0 ∨ msg = []
    · simp [sendFramedMessage, hcut] at h
    · simp only [sendFramedMessage, if_neg hcut] at h
      have := sendLoop_true_writes evs (sendFrameBytes msg) 0 ws h
      simpa using this

/-- Witness for C7: a one-byte payload accepted in a single write. -/
theorem sendFramed_contract_check :
    sendFramedMessage 0 [65] [NetEvent.sendOk 5] =
      some (true, [sendFrameBytes [65]]) :=
  sendFramed_contract.2.2.1 0 [65] (by decide) (by decide)

/-! ## Claim C8: the accept loop admission ceiling -/

/-- `ClientConnection` from `server.h`, reduced to the fields the accept loop
reads: the id and the two lifecycle flags. -/
structure ClientConnection where
  id : Nat
  running : Bool
  connected : Bool
deriving DecidableEq, Repr

/-- The state `serverAcceptThread` mutates across one readable event: the
registry of live connections, the next id, and the notification queue. -/
structure ServerState where
  clients : List ClientConnection
  nextClientId : Nat
  notifications : List (String × String)
deriving DecidableEq, Repr

/-- The `remove_if` pass: drop every entry whose `connected` and `running`
flags are both false. -/
def pruneDisconnected (clients : List ClientConnection) :
    List ClientConnection :=
  clients.filter (fun c => c.connected || c.running)

/-- One readable event of `serverAcceptThread`: prune fully terminated
entries under the lock, then either reject (accept and close immediately,
one rejection notification, no insertion) when at or over the ceiling, or
accept, build the connection with the next id and insert it. `acceptOk`
tells whether the `accept` call produced a descriptor and `stillRunning`
whether the running flag still held after the accept. -/
def serverHandleReadable (maxConnections : Nat) (acceptOk stillRunning : Bool)
    (s : ServerState) : ServerState :=
  let pruned := pruneDisconnected s.clients
  if pruned.length ≥ maxConnections then
    if acceptOk then
      { clients := pruned, nextClientId := s.nextClientId,
        notifications := s.notifications ++
          [("System", "Connection rejected: maximum connections reached")] }
    else
      { clients := pruned, nextClientId := s.nextClientId,
        notifications := s.notifications }
  else
    if acceptOk && stillRunning then
      { clients := pruned ++
          [{ id := s.nextClientId, running := true, connected := false }],
        nextClientId := s.nextClientId + 1,
        notifications := s.notifications ++
          [("System", "Client " ++ toString s.nextClientId ++ " connected")] }
    else
      { clients := pruned, nextClientId := s.nextClientId,
        notifications := s.notifications }

/-- C8: each readable event first prunes entries whose flags are both false;
at or over the ceiling it accepts-and-closes, enqueues exactly one rejection
notification and inserts nothing; below the ceiling it inserts exactly one
new connection with the freshly assigned id; and a registry within the
ceiling never grows past it. -/
theorem admission_ceiling :
    (∀ (maxConnections : Nat) (stillRunning : Bool) (s : ServerState),
      maxConnections ≤ (pruneDisconnected s.clients).length →
      serverHandleReadable maxConnections true stillRunning s =
        { clients := pruneDisconnected s.clients,
          nextClientId := s.nextClientId,
          notifications := s.notifications ++
            [("System", "Connection rejected: maximum connections reached")] }) ∧
    (∀ (maxConnections : Nat) (s : ServerState),
      (pruneDisconnected s.clients).length < maxConnections →
      serverHandleReadable maxConnections true true s =
        { clients := pruneDisconnected s.clients ++
            [{ id := s.nextClientId, running := true, connected := false }],
          nextClientId := s.nextClientId + 1,
          notifications := s.notifications ++
            [("System", "Client " ++ toString s.nextClientId ++ " connected")] }) ∧
    (∀ (maxConnections : Nat) (acceptOk stillRunning : Bool) (s : ServerState),
      s.clients.length ≤ maxConnections →
      (serverHandleReadable maxConnections acceptOk stillRunning
        s).clients.length ≤ maxConnections) := by
  refine ⟨?_, ?_, ?_⟩
  · intro maxConnections stillRunning s hge
    simp [serverHandleReadable, hge]
  · intro maxConnections s hlt
    have hge : ¬ (pruneDisconnected s.clients).length ≥ maxConnections := by
      omega
    simp [serverHandleReadable, hge]
  · intro maxConnections acceptOk stillRunning s hle
    have hprune : (pruneDisconnected s.clients).length ≤ s.clients.length :=
      List.length_filter_le _ s.clients
    by_cases hcap : (pruneDisconnected s.clients).length ≥ maxConnections
    · cases acceptOk <;> simp [serverHandleReadable, hcap] <;> omega
    · cases acceptOk <;> cases stillRunning <;>
        simp [serverHandleReadable, hcap] <;> omega

/-- Witness for C8: ceiling 1 with one live connection rejects; an empty
registry accepts and inserts connection 0. -/
theorem admission_ceiling_check :
    serverHandleReadable 1 true true
        { clients := [{ id := 0, running := true, connected := true }],
          nextClientId := 1, notifications := [] } =
      { clients := [{ id := 0, running := true, connected := true }],
        nextClientId := 1,
        notifications :=
          [("System", "Connection rejected: maximum connections reached")] } ∧
    serverHandleReadable 1 true true
        { clients := [], nextClientId := 0, notifications := [] } =
      { clients := [{ id := 0, running := true, connected := false }],
        nextClientId := 1,
        notifications := [("System", "Client 0 connected")] } :=
  ⟨admission_ceiling.1 1 true
      { clients := [{ id := 0, running := true, connected := true }],
        nextClientId := 1, notifications := [] } (by decide),
    admission_ceiling.2.1 1
      { clients := [], nextClientId := 0, notifications := [] } (by decide)⟩

/-! ## Claim C9: clientConnectThread always signals completion -/

/-- One iteration of the connect wait loop, as decided by scheduler and
transport: `stopped` is the running flag observed false at the loop head;
the others carry the milliseconds the iteration consumed. `writableOk` is
`POLLOUT` with a clean `SO_ERROR`; `writableErr` is `POLLOUT` with a pending
error; `pollTimeout` covers a zero poll result. -/
inductive ConnEvent where
  | stopped
  | pollErr (dt : Nat)
  | pollTimeout (dt : Nat)
  | writableOk (dt : Nat)
  | writableErr (dt : Nat)
deriving DecidableEq, Repr

/-- The in-progress wait loop of `clientConnectThread`: while the running
flag holds, check the remaining deadline, then poll for writability.
Returns the `connectSuccess` value on exit, or `none` when the event trace
ends with the loop still going. -/
def connectWaitLoop (timeoutMs : Int) : List ConnEvent → Nat → Option Bool
  | [], _ => none
  | ConnEvent.stopped :: _, _ => some false
  | ConnEvent.pollErr _ :: _, elapsed =>
    if timeoutMs - (elapsed : Int) ≤ 0 then some false else some false
  | ConnEvent.pollTimeout dt :: rest, elapsed =>
    if timeoutMs - (elapsed : Int) ≤ 0 then some false
    else connectWaitLoop timeoutMs rest (elapsed + dt)
  | ConnEvent.writableOk _ :: _, elapsed =>
    if timeoutMs - (elapsed : Int) ≤ 0 then some false else some true
  | ConnEvent.writableErr _ :: _, elapsed =>
    if timeoutMs - (elapsed : Int) ≤ 0 then some false else some false

/-- The outcome of the initial non-blocking `connect` call. -/
inductive ConnectAttempt where
  | immediateSuccess
  | hardFail
  | inProgress
deriving DecidableEq, Repr

/-- The inputs `clientConnectThread` branches on before entering the wait
loop: socket validity, whether `makeNonBlocking` succeeded, and the
`connect` outcome. -/
structure ConnectSetup where
  socketValid : Bool
  nonBlockingOk : Bool
  connectResult : ConnectAttempt
deriving DecidableEq, Repr

/-- `clientConnectThread`: each early-exit path and the wait loop all end by
setting `connectSuccess` then `connectComplete := true`. The returned pair
is `(connectSuccess, connectComplete)`; `none` means the thread is still
running when the trace ends. -/
def clientConnectThread (cfg : ConnectSetup) (timeoutSeconds : Int)
    (evs : List ConnEvent) : Option (Bool × Bool) :=
  if ¬ cfg.socketValid then some (false, true)
  else if ¬ cfg.nonBlockingOk then some (false, true)
  else
    match cfg.connectResult with
    | ConnectAttempt.immediateSuccess => some (true, true)
    | ConnectAttempt.hardFail => some (false, true)
    | ConnectAttempt.inProgress =>
      match connectWaitLoop (timeoutSeconds * 1000) evs 0 with
      | some b => some (b, true)
      | none => none

lemma connectWaitLoop_deadline : ∀ (dts : List Nat) (timeoutMs : Int)
    (elapsed : Nat) (tailEvs : List ConnEvent),
    timeoutMs ≤ (elapsed : Int) + (dts.sum : Int) →
    connectWaitLoop timeoutMs
      (dts.map ConnEvent.pollTimeout ++ ConnEvent.writableOk 0 :: tailEvs)
      elapsed = some false := by
  intro dts
  induction dts with
  | nil =>
    intro timeoutMs elapsed tailEvs h
    have hle : timeoutMs - (elapsed : Int) ≤ 0 := by
      simp at h
      omega
    simp [connectWaitLoop, hle]
  | cons d ds ihd =>
    intro timeoutMs elapsed tailEvs h
    by_cases hle : timeoutMs - (elapsed : Int) ≤ 0
    · simp [connectWaitLoop, hle]
    · have hrec := ihd timeoutMs (elapsed + d) tailEvs (by
        simp at h ⊢
        omega)
      simp only [List.map_cons, List.cons_append, connectWaitLoop, if_neg hle]
      exact hrec

/-- C9: every termination path of `clientConnectThread` — invalid socket,
non-blocking failure, immediate connect success, immediate hard failure,
cancellation via the running flag, pending-error on writability, and
deadline exhaustion — reports `connectComplete = true` together with the
success value of that path; in particular a deadline that elapses before
writability reports `success = false` even if the descriptor turns writable
afterwards. -/
theorem connect_thread_completion :
    (∀ (cfg : ConnectSetup) (t : Int) (evs : List ConnEvent)
        (r : Bool × Bool),
      clientConnectThread cfg t evs = some r → r.2 = true) ∧
    (∀ (nb : Bool) (cr : ConnectAttempt) (t : Int) (evs : List ConnEvent),
      clientConnectThread ⟨false, nb, cr⟩ t evs = some (false, true)) ∧
    (∀ (cr : ConnectAttempt) (t : Int) (evs : List ConnEvent),
      clientConnectThread ⟨true, false, cr⟩ t evs = some (false, true)) ∧
    (∀ (t : Int) (evs : List ConnEvent),
      clientConnectThread ⟨true, true, ConnectAttempt.immediateSuccess⟩ t evs
        = some (true, true)) ∧
    (∀ (t : Int) (evs : List ConnEvent),
      clientConnectThread ⟨true, true, ConnectAttempt.hardFail⟩ t evs =
        some (false, true)) ∧
    (∀ (t : Int) (evs : List ConnEvent),
      clientConnectThread ⟨true, true, ConnectAttempt.inProgress⟩ t
        (ConnEvent.stopped :: evs) = some (false, true)) ∧
    (∀ (t : Int) (dt : Nat) (evs : List ConnEvent), 0 < t →
      clientConnectThread ⟨true, true, ConnectAttempt.inProgress⟩ t
        (ConnEvent.writableErr dt :: evs) = some (false, true)) ∧
    (∀ (t : Int) (dts : List Nat) (evs : List ConnEvent),
      t * 1000 ≤ (dts.sum : Int) →
      clientConnectThread ⟨true, true, ConnectAttempt.inProgress⟩ t
        (dts.map ConnEvent.pollTimeout ++ ConnEvent.writableOk 0 :: evs) =
        some (false, true)) := by
  refine ⟨?_, ?_, ?_, ?_, ?_, ?_, ?_, ?_⟩
  · intro cfg t evs r h
    rcases cfg with ⟨sv, nb, cr⟩
    cases sv
    · simp [clientConnectThread] at h
      simp [← h]
    · cases nb
      · simp [clientConnectThread] at h
        simp [← h]
      · cases cr <;> simp only [clientConnectThread] at h
        · simp at h
          simp [← h]
        · simp at h
          simp [← h]
        · rcases hw : connectWaitLoop (t * 1000) evs 0 with _ | b <;>
            rw [hw] at h
          · simp at h
          · simp at h
            simp [← h]
  · intro nb cr t evs
    simp [clientConnectThread]
  · intro cr t evs
    simp [clientConnectThread]
  · intro t evs
    simp [clientConnectThread]
  · intro t evs
    simp [clientConnectThread]
  · intro t evs
    simp [clientConnectThread, connectWaitLoop]
  · intro t dt evs ht
    have hle : ¬ t * 1000 - ((0 : Nat) : Int) ≤ 0 := by
      push_cast
      omega
    simp [clientConnectThread, connectWaitLoop, hle]
  · intro t dts evs hsum
    have hloop := connectWaitLoop_deadline dts (t * 1000) 0 evs (by
      push_cast
      push_cast at hsum
      omega)
    simp [clientConnectThread, hloop]

/-- Witness for C9: a one-second deadline consumed by a single 1000 ms poll
timeout; the writable event that follows cannot save the attempt. -/
theorem connect_thread_completion_check :
    clientConnectThread ⟨true, true, ConnectAttempt.inProgress⟩ 1
        ([1000].map ConnEvent.pollTimeout ++ ConnEvent.writableOk 0 :: []) =
      some (false, true) :=
  connect_thread_completion.2.2.2.2.2.2.2 1 [1000] [] (by norm_num)

end HftGateway
